import Mathlib

/-!
Verification of the ESP32-AC backend core: the MQTT topic router/dispatcher
(`src/backend/mqtt_client.py`) and the schedule execution engine
(`src/backend/scheduler.py`), shallowly embedded in Lean.

Strings are modelled as Lean `String`/`List Char` (byte-exact, case-sensitive),
Python sets of strings as `List String` with membership-based insertion,
and the fallible collaborators (MQTT publish result, JSON parse of the
`days_of_week` column, database commit) as explicit boolean oracles.
-/

/-! ## Pattern matching (`MQTTClient._topic_matches`, mqtt_client.py lines 149-157)

The source converts the MQTT pattern to a regular expression by textual
replacement (`pattern.replace('+', '[^/]+').replace('#', '.*')`) and then
anchors it (`re.match(f"^{pattern}$", topic)`).  We embed the regex the
replacement produces as a token list: `+` becomes "one or more characters
other than `/`", `#` becomes "any characters", and `.` (a regex
metacharacter left untouched by the replacement) matches any single
character other than a newline, exactly as in Python's `re` default mode.
All remaining characters of the patterns this code base registers are
regex-literal characters and are modelled as literals.  Python's `$`
anchor (without re.MULTILINE) accepts both at the very end of the topic
and just before a single trailing newline, so the full match is a
disjunction over those two end positions. -/

inductive RTok where
  | lit (c : Char)
  | dot
  | star
  | plusNS
deriving DecidableEq

/-- Translation of one pattern character into the regex fragment produced by
the source's `replace` calls: `+` to `[^/]+`, `#` to `.*`, any other
character stands for itself in the regex (`.` being the any-character
metacharacter). -/
def tokOf (c : Char) : List RTok :=
  if c = '+' then [RTok.plusNS]
  else if c = '#' then [RTok.star]
  else if c = '.' then [RTok.dot]
  else [RTok.lit c]

/-- The full regex built from a pattern, one fragment per character. -/
def compilePattern : List Char → List RTok
  | [] => []
  | c :: cs => tokOf c ++ compilePattern cs

/-- Fuel-indexed anchored regex matcher (the semantics of
`re.match("^...$", topic)` for the fragments above; a full match of the
whole topic is required).  The fuel only serves to make the recursion
structural; `rmatch` below always supplies enough fuel. -/
def rmatchF : Nat → List RTok → List Char → Bool
  | 0, _, _ => false
  | _ + 1, [], [] => true
  | _ + 1, [], _ :: _ => false
  | _ + 1, RTok.lit _ :: _, [] => false
  | f + 1, RTok.lit c :: ps, t :: ts => c == t && rmatchF f ps ts
  | _ + 1, RTok.dot :: _, [] => false
  | f + 1, RTok.dot :: ps, t :: ts => t != '\n' && rmatchF f ps ts
  | f + 1, RTok.star :: ps, [] => rmatchF f ps []
  | f + 1, RTok.star :: ps, t :: ts =>
      rmatchF f ps (t :: ts) || (t != '\n' && rmatchF f (RTok.star :: ps) ts)
  | _ + 1, RTok.plusNS :: _, [] => false
  | f + 1, RTok.plusNS :: ps, t :: ts =>
      t != '/' && (rmatchF f ps ts || rmatchF f (RTok.plusNS :: ps) ts)

/-- Match of the compiled regex against one whole candidate string (the
body of `^...$` consuming everything up to one fixed end position). -/
def rmatch (ps : List RTok) (ts : List Char) : Bool :=
  rmatchF (ps.length + ts.length + 1) ps ts

/-- Strip one trailing newline: `chopNL ts = some u` exactly when
`ts = u ++ ['\n']`. -/
def chopNL : List Char → Option (List Char)
  | [] => none
  | c :: cs =>
    match cs with
    | [] => if c = '\n' then some [] else none
    | d :: cs' => (chopNL (d :: cs')).map (fun u => c :: u)

/-- `MQTTClient._topic_matches(topic, pattern)` (mqtt_client.py lines
149-157), i.e. `re.match(f"^{pattern}$", topic)`: the regex body must
consume the topic up to a position where `$` matches — the very end of
the topic, or just before a single trailing newline (Python's `$` rule
without re.MULTILINE). -/
def _topic_matches (topic pattern : String) : Bool :=
  rmatch (compilePattern pattern.data) topic.data ||
    (match chopNL topic.data with
     | some u => rmatch (compilePattern pattern.data) u
     | none => false)

/-! ## The specification's segment-wise matcher (spec section 4.1)

A second, clearly separated definition written from the spec's words, to be
compared with `_topic_matches`: `/`-delimited segment-wise comparison,
`+` matches exactly one non-empty segment, a final `#` segment matches the
remainder of the topic including zero or more segments, every other
segment must be byte-equal. -/

/-- First `/`-separated segment of a character list, together with the rest
after the first `/` (or `none` when there is no `/`).  This mirrors the
head of Python's `topic.split('/')`. -/
def firstSeg : List Char → List Char × Option (List Char)
  | [] => ([], none)
  | c :: cs =>
    if c = '/' then ([], some cs)
    else (c :: (firstSeg cs).1, (firstSeg cs).2)

/-- `/`-separated segments of a character list; same semantics as Python's
`str.split('/')` (the empty string yields one empty segment). -/
def splitSeg : List Char → List (List Char)
  | [] => [[]]
  | c :: cs =>
    if c = '/' then [] :: splitSeg cs
    else
      match splitSeg cs with
      | [] => [[c]]
      | s :: rest => (c :: s) :: rest

/-- Whether a topic segment satisfies one (non-`#`) pattern segment:
`+` requires exactly one non-empty segment, anything else byte-equality. -/
def segOK (t p : List Char) : Bool :=
  if p = ['+'] then !t.isEmpty else decide (p = t)

/-- Segment-wise matching as the spec states it. -/
def specSegMatch : List (List Char) → List (List Char) → Bool
  | ts, [] => ts.isEmpty
  | ts, p :: ps =>
    if p :: ps = [['#']] then true
    else
      match ts with
      | [] => false
      | t :: ts' => segOK t p && specSegMatch ts' ps

/-- The matcher the spec describes (section 4.1 and section 8, first bullet). -/
def spec_topic_matches (topic pattern : String) : Bool :=
  specSegMatch (splitSeg topic.data) (splitSeg pattern.data)

/-- Regex metacharacters (plus the two wildcards): pattern segments free of
these are matched literally by the compiled regex. -/
def metaChar (c : Char) : Bool :=
  c == '+' || c == '#' || c == '.' || c == '*' || c == '?' || c == '(' ||
  c == ')' || c == '[' || c == ']' || c == '\\' || c == '^' || c == '$' ||
  c == '|' || c == '\x7b' || c == '\x7d'

/-- A character that the compiled regex matches literally. -/
def plainLit (c : Char) : Bool :=
  !metaChar c && c != '/'

/-- A well-formed pattern segment: the `+` wildcard standing alone, or a
literal segment free of wildcards and regex metacharacters. -/
def wfSeg (s : List Char) : Bool :=
  decide (s = ['+']) || s.all plainLit

/-- A well-formed pattern: every `/`-separated segment is well-formed. -/
def wfPat (p : List Char) : Bool :=
  (splitSeg p).all wfSeg

/-- Consume a run of literal characters from the topic, returning the rest. -/
def eatLits : List Char → List Char → Option (List Char)
  | [], t => some t
  | _ :: _, [] => none
  | c :: s, d :: t => if c = d then eatLits s t else none

/-! ## Topic router / dispatcher (`MQTTClient`, mqtt_client.py)

Python dicts preserve insertion order, so `self.callbacks` is modelled as a
list of (pattern, handler) pairs with unique keys; handlers are opaque
values of a type `H`.  paho-mqtt runs `on_connect`, `on_disconnect` and
`on_message` sequentially on its single network-loop thread, so the
client's life is a sequence of events processed one at a time. -/

structure MqttState (H : Type) where
  connected : Bool
  callbacks : List (String × H)

/-- Observable actions of the client: a subscribe request sent to the
broker, or the dispatch of an inbound message to a handler. -/
inductive MqttAction (H : Type) where
  | subscribe (pattern : String)
  | dispatch (topic : String) (h : H)
deriving DecidableEq

/-- `MQTTClient.register_callback` (lines 159-166): store or overwrite the
handler under the pattern (dict assignment keeps an existing key at its
original position) and, when already connected, issue one immediate
subscribe request. -/
def register_callback {H : Type} (st : MqttState H) (pattern : String) (handler : H) :
    MqttState H × List (MqttAction H) :=
  let cbs :=
    if st.callbacks.any (fun e => decide (e.1 = pattern)) then
      st.callbacks.map (fun e => if e.1 = pattern then (pattern, handler) else e)
    else st.callbacks ++ [(pattern, handler)]
  ({ st with callbacks := cbs },
   if st.connected then [MqttAction.subscribe pattern] else [])

/-- `MQTTClient._on_message` (lines 76-147), reduced to its dispatch
decision: a topic with fewer than two `/`-separated segments fails the
`len(topic_parts) >= 2` guard of line 92 and is dropped before any pattern
is consulted; otherwise the registered patterns are scanned in registration
order and only the first match fires (the loop breaks after invoking one
callback, line 141). -/
def _on_message {H : Type} (callbacks : List (String × H)) (topic : String) :
    List (MqttAction H) :=
  if 2 ≤ (splitSeg topic.data).length then
    match callbacks.find? (fun e => _topic_matches topic e.1) with
    | some e => [MqttAction.dispatch topic e.2]
    | none => []
  else []

/-- `MQTTClient._on_connect` (lines 58-69): on result code 0 set the
connected flag and subscribe to every registered pattern in registry
order; on any other code do nothing. -/
def _on_connect {H : Type} (st : MqttState H) (rc : Nat) :
    MqttState H × List (MqttAction H) :=
  if rc = 0 then
    ({ st with connected := true },
     st.callbacks.map (fun e => MqttAction.subscribe e.1))
  else (st, [])

/-- `MQTTClient._on_disconnect` (lines 71-74). -/
def _on_disconnect {H : Type} (st : MqttState H) : MqttState H × List (MqttAction H) :=
  ({ st with connected := false }, [])

/-- Events delivered sequentially by the transport library's network loop. -/
inductive MqttEvent where
  | connectAck (rc : Nat)
  | disconnected
  | message (topic : String)

def stepEvent {H : Type} (st : MqttState H) : MqttEvent → MqttState H × List (MqttAction H)
  | MqttEvent.connectAck rc => _on_connect st rc
  | MqttEvent.disconnected => _on_disconnect st
  | MqttEvent.message t => (st, _on_message st.callbacks t)

/-- Run a sequence of transport events, collecting the emitted actions in
order. -/
def runEvents {H : Type} (st : MqttState H) :
    List MqttEvent → MqttState H × List (MqttAction H)
  | [] => (st, [])
  | e :: es =>
    let o := stepEvent st e
    let o' := runEvents o.1 es
    (o'.1, o.2 ++ o'.2)

/-! ## Schedule execution engine (`SchedulerService`, scheduler.py) -/

/-- A row of the `schedules` table (database.py).  The `days_of_week`
column stores a JSON array of ISO weekday numbers as text; the decoded
value is modelled directly, with `none` standing for a NULL/empty column
(so `json.loads(s) if s else []` yields `[]`). -/
structure Schedule where
  id : Nat
  name : String
  device_id : String
  action : String
  time : String
  days_of_week : Option (List Nat)
  is_active : Bool
deriving DecidableEq

/-- `json.loads(schedule.days_of_week) if schedule.days_of_week else []`
(line 103). -/
def daysOfWeek (s : Schedule) : List Nat :=
  s.days_of_week.getD []

/-- The evaluator's per-day dedup state: `self._executed_today` (a Python
set of strings) and `self._last_check_date` (absent before the first
tick, hence the `Option`). -/
structure SchedState where
  executedToday : List String
  lastCheckDate : Option Nat
deriving DecidableEq

/-- One tick's environment: the local wall clock already truncated to the
minute (`now.strftime("%H:%M")`), the ISO weekday (`now.isoweekday()`),
the local calendar date (`now.date()`, encoded as a day number), and
oracles for the fallible collaborators, indexed by schedule id: the result
of `mqtt.send_ac_command`, whether `json.loads` of the rule's
`days_of_week` raises, and whether `session.commit()` while saving the
event raises. -/
structure TickEnv where
  time : String
  weekday : Nat
  date : Nat
  sendSuccess : Nat → Bool
  excParse : Nat → Bool
  excCommit : Nat → Bool

/-- An `ac_events` row as written by `_execute_schedule` (the `utcnow`
timestamp is not modelled; `schedId` records the triggering schedule's id,
which also appears in string form inside `triggered_by`). -/
structure AcEvent where
  device_id : String
  action : String
  triggered_by : String
  schedId : Nat
deriving DecidableEq

/-- One outbound `mqtt.send_ac_command(device_id, action)` call, tagged
with the id of the schedule on whose behalf it was made. -/
structure Cmd where
  device_id : String
  action : String
  schedId : Nat
deriving DecidableEq

/-- Result of evaluating one rule or one whole tick: updated dedup state,
persisted automation events, and outbound command calls, in order. -/
structure TickOut where
  st : SchedState
  events : List AcEvent
  cmds : List Cmd
deriving DecidableEq

/-- `f"{schedule.id}_{current_date}"` (line 92). -/
def dedupKey (id date : Nat) : String :=
  toString id ++ "_" ++ toString date

/-- Python `set.add`: insert if not already present. -/
def addKey (s : List String) (k : String) : List String :=
  if k ∈ s then s else s ++ [k]

/-- Body of the per-schedule loop (scheduler.py lines 89-118) with
`_execute_schedule` (lines 120-145) inlined, including the `try/except`
around the loop body: skip if already executed today (line 95), if the
time string differs (line 99), or — after the JSON decode of
`days_of_week` (line 103), which may raise — if the weekday does not apply
(line 104); otherwise send the command.  A send that merely returns
failure makes `_execute_schedule` return early, after which line 113 still
adds the dedup key, whereas an exception raised while committing the event
propagates past line 113 to the `except`, so neither the event nor the
dedup entry is kept.  `get_mqtt_client()` always returns a client (it
constructs one on demand), so the `if not mqtt` guard on line 124 never
fires. -/
def checkSchedule (env : TickEnv) (st : SchedState) (s : Schedule) : TickOut :=
  let key := dedupKey s.id env.date
  if key ∈ st.executedToday then ⟨st, [], []⟩
  else if s.time ≠ env.time then ⟨st, [], []⟩
  else if env.excParse s.id then ⟨st, [], []⟩
  else if daysOfWeek s ≠ [] ∧ env.weekday ∉ daysOfWeek s then ⟨st, [], []⟩
  else
    if env.sendSuccess s.id = false then
      ⟨{ st with executedToday := addKey st.executedToday key }, [],
       [⟨s.device_id, s.action, s.id⟩]⟩
    else if env.excCommit s.id then ⟨st, [], [⟨s.device_id, s.action, s.id⟩]⟩
    else
      ⟨{ st with executedToday := addKey st.executedToday key },
       [⟨s.device_id, s.action, "schedule:" ++ toString s.id, s.id⟩],
       [⟨s.device_id, s.action, s.id⟩]⟩

/-- The `for schedule in schedules` loop of lines 89-118. -/
def runRules (env : TickEnv) (st : SchedState) : List Schedule → TickOut
  | [] => ⟨st, [], []⟩
  | s :: rest =>
    let o := checkSchedule env st s
    let o' := runRules env o.st rest
    ⟨o'.st, o.events ++ o'.events, o.cmds ++ o'.cmds⟩

/-- `SchedulerService._check_and_execute_schedules` (lines 63-118): the
date-rollover barrier of lines 71-75 (also taken on the very first tick,
when `_last_check_date` does not exist yet), then the per-rule loop over
the rows of the active-schedule query of lines 79-82 (`schedules` is the
full table; the query's `is_active` filter is applied here). -/
def check_and_execute_schedules (env : TickEnv) (st : SchedState)
    (schedules : List Schedule) : TickOut :=
  let st0 : SchedState :=
    if st.lastCheckDate ≠ some env.date then ⟨[], some env.date⟩ else st
  runRules env st0 (schedules.filter (fun s => s.is_active))

/-- The periodic loop `_run_scheduler` (lines 46-61) as a sequence of
ticks: each element carries that tick's wall-clock environment and the
rows its active-schedule query returns.  Exceptions inside a tick are
caught (lines 115-118 per rule, 57-61 per tick), so every tick in the
list runs. -/
def runTicks : List (TickEnv × List Schedule) → SchedState → TickOut
  | [], st => ⟨st, [], []⟩
  | (env, schedules) :: rest, st =>
    let o := check_and_execute_schedules env st schedules
    let o' := runTicks rest o.st
    ⟨o'.st, o.events ++ o'.events, o.cmds ++ o'.cmds⟩

/-- `SchedulerService` lifecycle state: the `running` flag and the number
of periodic tick-loop tasks ever created by `asyncio.create_task`
(line 32). -/
structure ServiceState where
  running : Bool
  tasksCreated : Nat
deriving DecidableEq

/-- `SchedulerService.start` (lines 25-33): an early return when already
running, otherwise set the flag and create the single tick-loop task. -/
def SchedulerService.start (st : ServiceState) : ServiceState :=
  if st.running then st
  else { running := true, tasksCreated := st.tasksCreated + 1 }

/-- Outbound commands made on behalf of schedule `r`. -/
def cmdsFor (r : Nat) (l : List Cmd) : List Cmd :=
  l.filter (fun c => decide (c.schedId = r))

/-- Automation events recorded on behalf of schedule `r`. -/
def eventsFor (r : Nat) (l : List AcEvent) : List AcEvent :=
  l.filter (fun e => decide (e.schedId = r))

/-- Every dedup entry belongs to the recorded date. -/
def DateInv (st : SchedState) : Prop :=
  ∀ k ∈ st.executedToday, ∃ i d, st.lastCheckDate = some d ∧ k = dedupKey i d

/-- Sample rule and tick environments used by the concrete witnesses:
a rule for device ESP32-001 firing at 14:00 every day, and three
environments at 14:00 on weekday 3 of day 0 in which the send succeeds,
the send returns failure, and the event commit raises. -/
def sampleSchedule : Schedule := ⟨1, "night", "ESP32-001", "on", "14:00", none, true⟩

def sampleEnvOK : TickEnv := ⟨"14:00", 3, 0, fun _ => true, fun _ => false, fun _ => false⟩

def sampleEnvFail : TickEnv := ⟨"14:00", 3, 0, fun _ => false, fun _ => false, fun _ => false⟩

def sampleEnvCommitExc : TickEnv :=
  ⟨"14:00", 3, 0, fun _ => true, fun _ => false, fun _ => true⟩

/-! ## Regex matcher lemmas -/

theorem rmatchF_fuel (f₁ : Nat) : ∀ (f₂ : Nat) (ps : List RTok) (ts : List Char),
    ps.length + ts.length < f₁ → ps.length + ts.length < f₂ →
    rmatchF f₁ ps ts = rmatchF f₂ ps ts := by
  induction f₁ with
  | zero => intro f₂ ps ts h₁ _; omega
  | succ f ih =>
    intro f₂ ps ts h₁ h₂
    cases f₂ with
    | zero => omega
    | succ g =>
      cases ps with
      | nil => cases ts <;> rfl
      | cons p ps' =>
        cases p with
        | lit c =>
          cases ts with
          | nil => rfl
          | cons t ts' =>
            simp only [rmatchF]
            rw [ih g ps' ts' (by simp only [List.length_cons] at h₁; omega)
                (by simp only [List.length_cons] at h₂; omega)]
        | dot =>
          cases ts with
          | nil => rfl
          | cons t ts' =>
            simp only [rmatchF]
            rw [ih g ps' ts' (by simp only [List.length_cons] at h₁; omega)
                (by simp only [List.length_cons] at h₂; omega)]
        | star =>
          cases ts with
          | nil =>
            simp only [rmatchF]
            rw [ih g ps' [] (by simp only [List.length_cons] at h₁; omega)
                (by simp only [List.length_cons] at h₂; omega)]
          | cons t ts' =>
            simp only [rmatchF]
            rw [ih g ps' (t :: ts') (by simp only [List.length_cons] at h₁ ⊢; omega)
                (by simp only [List.length_cons] at h₂ ⊢; omega),
              ih g (RTok.star :: ps') ts' (by simp only [List.length_cons] at h₁ ⊢; omega)
                (by simp only [List.length_cons] at h₂ ⊢; omega)]
        | plusNS =>
          cases ts with
          | nil => rfl
          | cons t ts' =>
            simp only [rmatchF]
            rw [ih g ps' ts' (by simp only [List.length_cons] at h₁; omega)
                (by simp only [List.length_cons] at h₂; omega),
              ih g (RTok.plusNS :: ps') ts' (by simp only [List.length_cons] at h₁ ⊢; omega)
                (by simp only [List.length_cons] at h₂ ⊢; omega)]

theorem rmatchF_eq_rmatch (f : Nat) (ps : List RTok) (ts : List Char)
    (h : ps.length + ts.length < f) : rmatchF f ps ts = rmatch ps ts :=
  rmatchF_fuel f (ps.length + ts.length + 1) ps ts h (by omega)

theorem rmatch_nil (t : List Char) : rmatch [] t = t.isEmpty := by
  cases t <;> rfl

theorem rmatch_lit_nil (c : Char) (ps : List RTok) : rmatch (RTok.lit c :: ps) [] = false := rfl

theorem rmatch_lit_cons (c : Char) (ps : List RTok) (t : Char) (ts : List Char) :
    rmatch (RTok.lit c :: ps) (t :: ts) = (c == t && rmatch ps ts) := by
  rw [show rmatch (RTok.lit c :: ps) (t :: ts)
        = rmatchF (ps.length + ts.length + 2 + 1) (RTok.lit c :: ps) (t :: ts) from
      (rmatchF_eq_rmatch _ _ _ (by simp only [List.length_cons]; omega)).symm]
  simp only [rmatchF]
  rw [rmatchF_eq_rmatch _ _ _ (by omega)]

theorem rmatch_plus_nil (ps : List RTok) : rmatch (RTok.plusNS :: ps) [] = false := rfl

theorem rmatch_plus_cons (ps : List RTok) (t : Char) (ts : List Char) :
    rmatch (RTok.plusNS :: ps) (t :: ts)
      = (t != '/' && (rmatch ps ts || rmatch (RTok.plusNS :: ps) ts)) := by
  rw [show rmatch (RTok.plusNS :: ps) (t :: ts)
        = rmatchF (ps.length + ts.length + 2 + 1) (RTok.plusNS :: ps) (t :: ts) from
      (rmatchF_eq_rmatch _ _ _ (by simp only [List.length_cons]; omega)).symm]
  simp only [rmatchF]
  rw [rmatchF_eq_rmatch _ _ _ (by omega),
    rmatchF_eq_rmatch _ _ _ (by simp only [List.length_cons]; omega)]

/-! ## Segment splitting lemmas -/

theorem firstSeg_cons (c : Char) (cs : List Char) :
    firstSeg (c :: cs) =
      if c = '/' then ([], some cs) else (c :: (firstSeg cs).1, (firstSeg cs).2) := rfl

theorem firstSeg_no_slash : ∀ cs : List Char, '/' ∉ (firstSeg cs).1 := by
  intro cs
  induction cs with
  | nil => simp [firstSeg]
  | cons c cs ih =>
    rw [firstSeg_cons]
    by_cases hc : c = '/'
    · simp [hc]
    · rw [if_neg hc]
      simp only [List.mem_cons, not_or]
      exact ⟨fun h => hc h.symm, ih⟩

theorem firstSeg_recons : ∀ cs : List Char,
    cs = (firstSeg cs).1 ++ (match (firstSeg cs).2 with | none => [] | some r => '/' :: r) := by
  intro cs
  induction cs with
  | nil => rfl
  | cons c cs ih =>
    rw [firstSeg_cons]
    by_cases hc : c = '/'
    · simp [hc]
    · rw [if_neg hc]
      simpa using congrArg (c :: ·) ih

theorem splitSeg_ne_nil : ∀ cs : List Char, splitSeg cs ≠ [] := by
  intro cs
  cases cs with
  | nil => simp [splitSeg]
  | cons c cs =>
    simp only [splitSeg]
    split
    · simp
    · split <;> simp

theorem splitSeg_no_slash {s : List Char} (h : '/' ∉ s) : splitSeg s = [s] := by
  induction s with
  | nil => rfl
  | cons c cs ih =>
    have hc : ¬ c = '/' := fun hh => h (by rw [hh]; exact List.mem_cons_self _ _)
    have hcs : '/' ∉ cs := fun hm => h (List.mem_cons_of_mem c hm)
    simp only [splitSeg, if_neg hc, ih hcs]

theorem splitSeg_append_slash {s : List Char} (t : List Char) (h : '/' ∉ s) :
    splitSeg (s ++ '/' :: t) = s :: splitSeg t := by
  induction s with
  | nil => simp [splitSeg]
  | cons c cs ih =>
    have hc : ¬ c = '/' := fun hh => h (by rw [hh]; exact List.mem_cons_self _ _)
    have hcs : '/' ∉ cs := fun hm => h (List.mem_cons_of_mem c hm)
    simp only [List.cons_append, splitSeg, if_neg hc, List.append_eq, ih hcs]

/-! ## Literal-run and wildcard characterisations -/

theorem eatLits_eq_some : ∀ {s t r : List Char}, eatLits s t = some r ↔ t = s ++ r := by
  intro s
  induction s with
  | nil => intro t r; simp [eatLits]
  | cons c cs ih =>
    intro t r
    cases t with
    | nil => simp [eatLits]
    | cons d t' =>
      simp only [eatLits, List.cons_append]
      by_cases hcd : c = d
      · subst hcd
        simp [ih]
      · rw [if_neg hcd]
        simp only [List.cons.injEq]
        constructor
        · intro h; exact absurd h (by simp)
        · intro h; exact absurd h.1.symm hcd

theorem rmatch_lits : ∀ (s : List Char) (ps : List RTok) (t : List Char),
    rmatch (s.map RTok.lit ++ ps) t =
      (match eatLits s t with
       | none => false
       | some t' => rmatch ps t') := by
  intro s
  induction s with
  | nil => intro ps t; rfl
  | cons c cs ih =>
    intro ps t
    cases t with
    | nil =>
      simp only [List.map_cons, List.cons_append, rmatch_lit_nil, eatLits]
    | cons d t' =>
      rw [List.map_cons, List.cons_append, rmatch_lit_cons]
      simp only [eatLits]
      by_cases hcd : c = d
      · rw [if_pos hcd, ih]
        simp [hcd]
      · rw [if_neg hcd]
        simp [hcd]

theorem rmatch_plus_only : ∀ t : List Char,
    rmatch [RTok.plusNS] t =
      (match firstSeg t with
       | (t0, none) => !t0.isEmpty
       | (_, some _) => false) := by
  intro t
  induction t with
  | nil => rfl
  | cons c ts ih =>
    rw [rmatch_plus_cons, firstSeg_cons]
    by_cases hc : c = '/'
    · subst hc; simp
    · rw [if_neg hc, rmatch_nil, ih]
      rcases hft : firstSeg ts with ⟨t0, o⟩
      have hr := firstSeg_recons ts
      rw [hft] at hr
      dsimp only at hr ⊢
      cases o with
      | none =>
        dsimp only at hr ⊢
        rw [List.append_nil] at hr
        subst hr
        cases ts <;> simp [hc]
      | some r =>
        dsimp only at hr ⊢
        subst hr
        cases t0 <;> simp [hc]

theorem rmatch_plus_slash : ∀ (ps : List RTok) (t : List Char),
    rmatch (RTok.plusNS :: RTok.lit '/' :: ps) t =
      (match firstSeg t with
       | (_, none) => false
       | (t0, some r) => !t0.isEmpty && rmatch ps r) := by
  intro ps t
  induction t with
  | nil => rfl
  | cons c ts ih =>
    rw [rmatch_plus_cons, firstSeg_cons]
    by_cases hc : c = '/'
    · subst hc; simp
    · rw [if_neg hc, ih]
      rcases hft : firstSeg ts with ⟨t0, o⟩
      have hr := firstSeg_recons ts
      rw [hft] at hr
      dsimp only at hr ⊢
      cases o with
      | none =>
        dsimp only at hr ⊢
        rw [List.append_nil] at hr
        subst hr
        have hns := firstSeg_no_slash ts
        rw [hft] at hns
        dsimp only at hns
        -- rmatch (lit '/' :: ps) ts = false since ts = t0 has no leading '/'
        have hlit : rmatch (RTok.lit '/' :: ps) ts = false := by
          cases hts : ts with
          | nil => exact rmatch_lit_nil _ _
          | cons d ts' =>
            rw [rmatch_lit_cons]
            have hd : d ≠ '/' := by
              intro hdd
              exact hns (by rw [hts, hdd]; exact List.mem_cons_self _ _)
            have hbeq : ('/' == d) = false := beq_eq_false_iff_ne.mpr (fun h => hd h.symm)
            simp [hbeq]
        rw [hlit]
        simp [hc]
      | some r =>
        dsimp only at hr ⊢
        have hns := firstSeg_no_slash ts
        rw [hft] at hns
        dsimp only at hns
        subst hr
        cases t0 with
        | nil =>
          simp only [List.nil_append, rmatch_lit_cons]
          simp [hc]
        | cons d t0' =>
          have hd : ¬ ('/' = d) := by
            intro hdd
            exact hns (by rw [← hdd] at *; exact List.mem_cons_self _ _)
          have hbeq : ('/' == d) = false := beq_eq_false_iff_ne.mpr hd
          simp only [List.cons_append, rmatch_lit_cons]
          simp [hc, hbeq]

theorem eat_lit_slash : ∀ (s t0 r : List Char) (ps : List RTok),
    '/' ∉ s → '/' ∉ t0 →
    (match eatLits s (t0 ++ '/' :: r) with
     | none => false
     | some t' => rmatch (RTok.lit '/' :: ps) t') = (decide (s = t0) && rmatch ps r) := by
  intro s
  induction s with
  | nil =>
    intro t0 r ps _ ht
    cases t0 with
    | nil =>
      simp only [eatLits, List.nil_append, rmatch_lit_cons]
      simp
    | cons d t0' =>
      have hd : ¬ ('/' = d) := by
        intro h
        exact ht (by rw [h]; exact List.mem_cons_self _ _)
      have hbeq : ('/' == d) = false := beq_eq_false_iff_ne.mpr hd
      simp only [eatLits, List.cons_append, rmatch_lit_cons]
      simp [hbeq]
  | cons a s' ih =>
    intro t0 r ps hs ht
    have ha : ¬ (a = '/') := by
      intro h
      exact hs (by rw [← h]; exact List.mem_cons_self _ _)
    have hs' : '/' ∉ s' := fun hm => hs (List.mem_cons_of_mem _ hm)
    cases t0 with
    | nil =>
      simp only [List.nil_append, eatLits, if_neg ha]
      simp
    | cons d t0' =>
      have ht' : '/' ∉ t0' := fun hm => ht (List.mem_cons_of_mem _ hm)
      simp only [List.cons_append, eatLits, List.append_eq]
      by_cases had : a = d
      · subst had
        rw [if_pos rfl, ih t0' r ps hs' ht']
        simp
      · rw [if_neg had]
        simp [had]

/-! ## Compilation and well-formedness lemmas -/

theorem compilePattern_append (a b : List Char) :
    compilePattern (a ++ b) = compilePattern a ++ compilePattern b := by
  induction a with
  | nil => rfl
  | cons c cs ih => simp [compilePattern, ih]

theorem plainLit_spec {c : Char} (h : plainLit c = true) :
    ¬ c = '+' ∧ ¬ c = '#' ∧ ¬ c = '.' ∧ ¬ c = '/' := by
  refine ⟨?_, ?_, ?_, ?_⟩ <;> intro he <;> subst he <;> exact absurd h (by decide)

theorem tokOf_lit {c : Char} (h : plainLit c = true) : tokOf c = [RTok.lit c] := by
  obtain ⟨h1, h2, h3, _⟩ := plainLit_spec h
  simp [tokOf, h1, h2, h3]

theorem compilePattern_lit {s : List Char} (h : s.all plainLit = true) :
    compilePattern s = s.map RTok.lit := by
  induction s with
  | nil => rfl
  | cons c cs ih =>
    simp only [List.all_cons, Bool.and_eq_true] at h
    simp [compilePattern, tokOf_lit h.1, ih h.2]

theorem all_plainLit_no_slash {s : List Char} (h : s.all plainLit = true) : '/' ∉ s := by
  intro hm
  have hp := (List.all_eq_true.mp h) _ hm
  exact absurd hp (by decide)

theorem all_plainLit_ne_hash {s : List Char} (h : s.all plainLit = true) : s ≠ ['#'] := by
  intro he
  subst he
  exact absurd h (by decide)

theorem wfPat_ne_hash {p : List Char} (h : wfPat p = true) : splitSeg p ≠ [['#']] := by
  intro he
  simp only [wfPat, he] at h
  exact absurd h (by decide)

theorem cons_ne_hash_of_head {p : List Char} (ps : List (List Char)) (h : p ≠ ['#']) :
    ¬ (p :: ps = [['#']]) := by
  intro he
  injection he with h1 _
  exact h h1

theorem splitSeg_isEmpty_false (r : List Char) : (splitSeg r).isEmpty = false := by
  rcases hx : splitSeg r with _ | ⟨a, b⟩
  · exact absurd hx (splitSeg_ne_nil r)
  · rfl

/-! ## specSegMatch unfolding lemmas -/

theorem specSegMatch_nil_pat (ts : List (List Char)) : specSegMatch ts [] = ts.isEmpty := by
  simp only [specSegMatch]

theorem specSegMatch_nil_cons (p : List Char) (ps : List (List Char))
    (h : ¬ (p :: ps = [['#']])) : specSegMatch [] (p :: ps) = false := by
  simp only [specSegMatch]
  rw [if_neg h]

theorem specSegMatch_cons_cons (t : List Char) (ts : List (List Char)) (p : List Char)
    (ps : List (List Char)) (h : ¬ (p :: ps = [['#']])) :
    specSegMatch (t :: ts) (p :: ps) = (segOK t p && specSegMatch ts ps) := by
  simp only [specSegMatch]
  rw [if_neg h]

/-- Key equivalence: on well-formed patterns (wildcards standing alone as
whole segments, no `#`, literal segments free of regex metacharacters) the
source's regex matcher agrees with the spec's segment-wise matcher. -/
theorem rmatch_eq_spec : ∀ (n : Nat) (p t : List Char), p.length < n → wfPat p = true →
    rmatch (compilePattern p) t = specSegMatch (splitSeg t) (splitSeg p) := by
  intro n
  induction n with
  | zero => intro p t h _; omega
  | succ n ih =>
    intro p t hl hw
    rcases hfp : firstSeg p with ⟨s, o⟩
    have hps : '/' ∉ s := by
      have h0 := firstSeg_no_slash p
      rw [hfp] at h0
      exact h0
    have hrec := firstSeg_recons p
    rw [hfp] at hrec
    dsimp only at hrec
    cases o with
    | none =>
      dsimp only at hrec
      rw [List.append_nil] at hrec
      subst hrec
      simp only [wfPat] at hw
      rw [splitSeg_no_slash hps] at hw ⊢
      simp only [List.all_cons, List.all_nil, Bool.and_true] at hw
      simp only [wfSeg, Bool.or_eq_true, decide_eq_true_eq] at hw
      by_cases hsp : p = ['+']
      · subst hsp
        have hcp : compilePattern ['+'] = [RTok.plusNS] := rfl
        rw [hcp, rmatch_plus_only]
        rcases hft : firstSeg t with ⟨t0, o2⟩
        have hts : '/' ∉ t0 := by
          have h0 := firstSeg_no_slash t
          rw [hft] at h0
          exact h0
        have hrt := firstSeg_recons t
        rw [hft] at hrt
        dsimp only at hrt ⊢
        cases o2 with
        | none =>
          dsimp only at hrt
          rw [List.append_nil] at hrt
          subst hrt
          rw [splitSeg_no_slash hts]
          rw [specSegMatch_cons_cons _ _ _ _ (cons_ne_hash_of_head _ (by decide))]
          rw [specSegMatch_nil_pat]
          simp [segOK]
        | some r =>
          dsimp only at hrt
          subst hrt
          rw [splitSeg_append_slash r hts]
          rw [specSegMatch_cons_cons _ _ _ _ (cons_ne_hash_of_head _ (by decide))]
          rw [specSegMatch_nil_pat, splitSeg_isEmpty_false]
          simp
      · have hlit : p.all plainLit = true := by
          rcases hw with hw | hw
          · exact absurd hw hsp
          · exact hw
        rw [compilePattern_lit hlit, ← List.append_nil (p.map RTok.lit), rmatch_lits]
        rcases hft : firstSeg t with ⟨t0, o2⟩
        have hts : '/' ∉ t0 := by
          have h0 := firstSeg_no_slash t
          rw [hft] at h0
          exact h0
        have hrt := firstSeg_recons t
        rw [hft] at hrt
        dsimp only at hrt ⊢
        cases o2 with
        | none =>
          dsimp only at hrt
          rw [List.append_nil] at hrt
          subst hrt
          rw [splitSeg_no_slash hts]
          rw [specSegMatch_cons_cons _ _ _ _ (cons_ne_hash_of_head _ (all_plainLit_ne_hash hlit))]
          rw [specSegMatch_nil_pat]
          simp only [List.isEmpty_nil, Bool.and_true, segOK, if_neg hsp]
          rcases he : eatLits p t with _ | t'
          · have hne : ¬ (p = t) := by
              intro heq
              subst heq
              have hself : eatLits p p = some [] := eatLits_eq_some.mpr (by simp)
              rw [hself] at he
              exact absurd he (by simp)
            simp [hne]
          · have hEq := eatLits_eq_some.mp he
            cases t' with
            | nil =>
              rw [List.append_nil] at hEq
              subst hEq
              simp [rmatch_nil]
            | cons c t'' =>
              have hne : ¬ (p = t) := by
                rw [hEq]
                intro hh
                have hlen2 := congrArg List.length hh
                simp only [List.length_append, List.length_cons] at hlen2
                omega
              simp [rmatch_nil, hne]
        | some r =>
          dsimp only at hrt
          subst hrt
          rw [splitSeg_append_slash r hts]
          rw [specSegMatch_cons_cons _ _ _ _ (cons_ne_hash_of_head _ (all_plainLit_ne_hash hlit))]
          rw [specSegMatch_nil_pat, splitSeg_isEmpty_false, Bool.and_false]
          rcases he : eatLits p (t0 ++ '/' :: r) with _ | t'
          · rfl
          · have hEq := eatLits_eq_some.mp he
            cases t' with
            | nil =>
              rw [List.append_nil] at hEq
              have hmem : '/' ∈ p := by
                rw [← hEq]
                exact List.mem_append_right _ (List.mem_cons_self _ _)
              exact absurd hmem (all_plainLit_no_slash hlit)
            | cons c t'' =>
              simp only []
              rw [rmatch_nil]
              rfl
    | some pr =>
      dsimp only at hrec
      subst hrec
      have hlen : pr.length < n := by
        simp only [List.length_append, List.length_cons] at hl
        omega
      simp only [wfPat] at hw
      rw [splitSeg_append_slash pr hps] at hw ⊢
      simp only [List.all_cons, Bool.and_eq_true] at hw
      obtain ⟨hws, hwpr⟩ := hw
      have hwfpr : wfPat pr = true := hwpr
      have hhash := wfPat_ne_hash hwfpr
      rw [compilePattern_append]
      have hslash : compilePattern ('/' :: pr) = RTok.lit '/' :: compilePattern pr := rfl
      rw [hslash]
      simp only [wfSeg, Bool.or_eq_true, decide_eq_true_eq] at hws
      by_cases hsp : s = ['+']
      · subst hsp
        have hcp : compilePattern ['+'] = [RTok.plusNS] := rfl
        rw [hcp, List.cons_append, List.nil_append, rmatch_plus_slash]
        rcases hft : firstSeg t with ⟨t0, o2⟩
        have hts : '/' ∉ t0 := by
          have h0 := firstSeg_no_slash t
          rw [hft] at h0
          exact h0
        have hrt := firstSeg_recons t
        rw [hft] at hrt
        dsimp only at hrt ⊢
        cases o2 with
        | none =>
          dsimp only at hrt
          rw [List.append_nil] at hrt
          subst hrt
          rw [splitSeg_no_slash hts]
          rw [specSegMatch_cons_cons _ _ _ _ (cons_ne_hash_of_head _ (by decide))]
          rcases hq : splitSeg pr with _ | ⟨q, qs⟩
          · exact absurd hq (splitSeg_ne_nil pr)
          · rw [hq] at hhash
            rw [specSegMatch_nil_cons _ _ hhash, Bool.and_false]
        | some r =>
          dsimp only at hrt ⊢
          subst hrt
          rw [splitSeg_append_slash r hts]
          rw [specSegMatch_cons_cons _ _ _ _ (cons_ne_hash_of_head _ (by decide))]
          rw [ih pr r hlen hwfpr]
          simp [segOK]
      · have hlit : s.all plainLit = true := by
          rcases hws with hws | hws
          · exact absurd hws hsp
          · exact hws
        rw [compilePattern_lit hlit, rmatch_lits]
        rcases hft : firstSeg t with ⟨t0, o2⟩
        have hts : '/' ∉ t0 := by
          have h0 := firstSeg_no_slash t
          rw [hft] at h0
          exact h0
        have hrt := firstSeg_recons t
        rw [hft] at hrt
        dsimp only at hrt ⊢
        cases o2 with
        | none =>
          dsimp only at hrt
          rw [List.append_nil] at hrt
          subst hrt
          rw [splitSeg_no_slash hts]
          rw [specSegMatch_cons_cons _ _ _ _ (cons_ne_hash_of_head _ (all_plainLit_ne_hash hlit))]
          rcases hq : splitSeg pr with _ | ⟨q, qs⟩
          · exact absurd hq (splitSeg_ne_nil pr)
          · rw [hq] at hhash
            rw [specSegMatch_nil_cons _ _ hhash, Bool.and_false]
            rcases he : eatLits s t with _ | t'
            · rfl
            · have hEq := eatLits_eq_some.mp he
              cases t' with
              | nil =>
                simp only []
                rw [rmatch_lit_nil]
              | cons d t'' =>
                simp only []
                rw [rmatch_lit_cons]
                have hd : ¬ ('/' = d) := by
                  intro hdd
                  have hmem : d ∈ t := by
                    rw [hEq]
                    exact List.mem_append_right _ (List.mem_cons_self _ _)
                  rw [← hdd] at hmem
                  exact hts hmem
                have hbeq : ('/' == d) = false := beq_eq_false_iff_ne.mpr hd
                simp [hbeq]
        | some r =>
          dsimp only at hrt
          subst hrt
          rw [splitSeg_append_slash r hts]
          rw [specSegMatch_cons_cons _ _ _ _ (cons_ne_hash_of_head _ (all_plainLit_ne_hash hlit))]
          rw [eat_lit_slash s t0 r (compilePattern pr) (all_plainLit_no_slash hlit) hts]
          rw [ih pr r hlen hwfpr]
          simp only [segOK, if_neg hsp]

/-! ## Scheduler lemmas -/

theorem addKey_subset (s : List String) (k : String) : ∀ x ∈ s, x ∈ addKey s k := by
  intro x hx
  simp only [addKey]
  split
  · exact hx
  · exact List.mem_append_left _ hx

theorem mem_addKey {s : List String} {k x : String} :
    x ∈ addKey s k ↔ x ∈ s ∨ x = k := by
  simp only [addKey]
  split
  · rename_i hk
    constructor
    · exact Or.inl
    · rintro (h | h)
      · exact h
      · rw [h]; exact hk
  · simp [List.mem_append]

theorem addKey_self (s : List String) (k : String) : k ∈ addKey s k :=
  mem_addKey.mpr (Or.inr rfl)

theorem checkSchedule_skip_mem (env : TickEnv) (st : SchedState) (s : Schedule)
    (h : dedupKey s.id env.date ∈ st.executedToday) :
    checkSchedule env st s = ⟨st, [], []⟩ := by
  simp only [checkSchedule]
  rw [if_pos h]

theorem checkSchedule_excParse (env : TickEnv) (st : SchedState) (s : Schedule)
    (h : env.excParse s.id = true) :
    checkSchedule env st s = ⟨st, [], []⟩ := by
  simp only [checkSchedule, h]
  split
  · rfl
  · split
    · rfl
    · simp

/-- The four possible outcomes of one rule evaluation: skipped; send failed
(key still added, no event); an exception escaped the event commit (command
already sent, nothing kept); full success. -/
theorem checkSchedule_cases (env : TickEnv) (st : SchedState) (s : Schedule) :
    checkSchedule env st s = ⟨st, [], []⟩ ∨
    checkSchedule env st s
        = ⟨{ st with executedToday := addKey st.executedToday (dedupKey s.id env.date) }, [],
           [⟨s.device_id, s.action, s.id⟩]⟩ ∨
    (env.excCommit s.id = true ∧
      checkSchedule env st s = ⟨st, [], [⟨s.device_id, s.action, s.id⟩]⟩) ∨
    checkSchedule env st s
        = ⟨{ st with executedToday := addKey st.executedToday (dedupKey s.id env.date) },
           [⟨s.device_id, s.action, "schedule:" ++ toString s.id, s.id⟩],
           [⟨s.device_id, s.action, s.id⟩]⟩ := by
  simp only [checkSchedule]
  split
  · exact Or.inl rfl
  · split
    · exact Or.inl rfl
    · split
      · exact Or.inl rfl
      · split
        · exact Or.inl rfl
        · split
          · exact Or.inr (Or.inl rfl)
          · split
            · rename_i hc
              exact Or.inr (Or.inr (Or.inl ⟨hc, rfl⟩))
            · exact Or.inr (Or.inr (Or.inr rfl))

theorem checkSchedule_lastCheckDate (env : TickEnv) (st : SchedState) (s : Schedule) :
    (checkSchedule env st s).st.lastCheckDate = st.lastCheckDate := by
  rcases checkSchedule_cases env st s with h | h | ⟨_, h⟩ | h <;> rw [h]

theorem checkSchedule_mono (env : TickEnv) (st : SchedState) (s : Schedule) :
    ∀ k ∈ st.executedToday, k ∈ (checkSchedule env st s).st.executedToday := by
  intro k hk
  rcases checkSchedule_cases env st s with h | h | ⟨_, h⟩ | h <;> rw [h]
  · exact hk
  · exact addKey_subset _ _ _ hk
  · exact hk
  · exact addKey_subset _ _ _ hk

theorem checkSchedule_mem_st {env : TickEnv} {st : SchedState} {s : Schedule} {k : String}
    (h : k ∈ (checkSchedule env st s).st.executedToday) :
    k ∈ st.executedToday ∨ k = dedupKey s.id env.date := by
  rcases checkSchedule_cases env st s with hc | hc | ⟨_, hc⟩ | hc <;> rw [hc] at h
  · exact Or.inl h
  · exact mem_addKey.mp h
  · exact Or.inl h
  · exact mem_addKey.mp h

theorem checkSchedule_other {env : TickEnv} {st : SchedState} {s : Schedule} {r : Nat}
    (h : ¬ s.id = r) :
    cmdsFor r (checkSchedule env st s).cmds = [] ∧
    eventsFor r (checkSchedule env st s).events = [] := by
  rcases checkSchedule_cases env st s with hc | hc | ⟨_, hc⟩ | hc <;>
    rw [hc] <;> simp [cmdsFor, eventsFor, h]

theorem checkSchedule_counts (env : TickEnv) (st : SchedState) (s : Schedule) (r : Nat) :
    (cmdsFor r (checkSchedule env st s).cmds).length ≤ 1 ∧
    (eventsFor r (checkSchedule env st s).events).length
      ≤ (cmdsFor r (checkSchedule env st s).cmds).length := by
  rcases checkSchedule_cases env st s with hc | hc | ⟨_, hc⟩ | hc <;> rw [hc] <;>
    by_cases hr : s.id = r <;> simp [cmdsFor, eventsFor, List.filter_cons, hr]

theorem checkSchedule_fires_mem {env : TickEnv} {st : SchedState} {s : Schedule} {r : Nat}
    (hc : env.excCommit r = false) (hid : s.id = r)
    (hne : cmdsFor r (checkSchedule env st s).cmds ≠ []) :
    dedupKey r env.date ∈ (checkSchedule env st s).st.executedToday := by
  subst hid
  rcases checkSchedule_cases env st s with h | h | ⟨hflag, h⟩ | h <;> rw [h] at hne ⊢
  · simp [cmdsFor] at hne
  · exact addKey_self _ _
  · rw [hflag] at hc
    exact absurd hc (by simp)
  · exact addKey_self _ _

theorem cmdsFor_append (r : Nat) (a b : List Cmd) :
    cmdsFor r (a ++ b) = cmdsFor r a ++ cmdsFor r b :=
  List.filter_append _ _

theorem eventsFor_append (r : Nat) (a b : List AcEvent) :
    eventsFor r (a ++ b) = eventsFor r a ++ eventsFor r b :=
  List.filter_append _ _

theorem runRules_lastCheckDate (env : TickEnv) : ∀ (L : List Schedule) (st : SchedState),
    (runRules env st L).st.lastCheckDate = st.lastCheckDate := by
  intro L
  induction L with
  | nil => intro st; rfl
  | cons s rest ih =>
    intro st
    simp only [runRules]
    rw [ih, checkSchedule_lastCheckDate]

theorem runRules_mono (env : TickEnv) : ∀ (L : List Schedule) (st : SchedState),
    ∀ k ∈ st.executedToday, k ∈ (runRules env st L).st.executedToday := by
  intro L
  induction L with
  | nil => intro st k hk; exact hk
  | cons s rest ih =>
    intro st k hk
    simp only [runRules]
    exact ih _ _ (checkSchedule_mono env st s k hk)

theorem runRules_mem_st (env : TickEnv) : ∀ (L : List Schedule) (st : SchedState)
    (k : String), k ∈ (runRules env st L).st.executedToday →
    k ∈ st.executedToday ∨ ∃ s ∈ L, k = dedupKey s.id env.date := by
  intro L
  induction L with
  | nil => intro st k hk; exact Or.inl hk
  | cons s rest ih =>
    intro st k hk
    simp only [runRules] at hk
    rcases ih _ _ hk with h | ⟨s', hs', he⟩
    · rcases checkSchedule_mem_st h with h2 | h2
      · exact Or.inl h2
      · exact Or.inr ⟨s, List.mem_cons_self _ _, h2⟩
    · exact Or.inr ⟨s', List.mem_cons_of_mem _ hs', he⟩

theorem runRules_skip (env : TickEnv) (r : Nat) : ∀ (L : List Schedule) (st : SchedState),
    dedupKey r env.date ∈ st.executedToday →
    cmdsFor r (runRules env st L).cmds = [] ∧
    eventsFor r (runRules env st L).events = [] ∧
    dedupKey r env.date ∈ (runRules env st L).st.executedToday := by
  intro L
  induction L with
  | nil => intro st hk; exact ⟨rfl, rfl, hk⟩
  | cons s rest ih =>
    intro st hk
    simp only [runRules, cmdsFor_append, eventsFor_append]
    by_cases hid : s.id = r
    · have hsk : checkSchedule env st s = ⟨st, [], []⟩ :=
        checkSchedule_skip_mem env st s (by rw [hid]; exact hk)
      rw [hsk]
      obtain ⟨h1, h2, h3⟩ := ih st hk
      simp only [cmdsFor, eventsFor, List.filter_nil] at *
      exact ⟨by simp [h1], by simp [h2], h3⟩
    · obtain ⟨h1, h2⟩ := @checkSchedule_other env st s r hid
      obtain ⟨h3, h4, h5⟩ := ih (checkSchedule env st s).st
        (checkSchedule_mono env st s _ hk)
      exact ⟨by simp [h1, h3], by simp [h2, h4], h5⟩

theorem runRules_le_one (env : TickEnv) (r : Nat) (hc : env.excCommit r = false) :
    ∀ (L : List Schedule) (st : SchedState),
    (cmdsFor r (runRules env st L).cmds).length ≤ 1 ∧
    (cmdsFor r (runRules env st L).cmds ≠ [] →
        dedupKey r env.date ∈ (runRules env st L).st.executedToday) ∧
    (eventsFor r (runRules env st L).events).length
      ≤ (cmdsFor r (runRules env st L).cmds).length := by
  intro L
  induction L with
  | nil =>
    intro st
    refine ⟨by simp [runRules, cmdsFor], ?_, by simp [runRules, cmdsFor, eventsFor]⟩
    intro h
    exact absurd rfl h
  | cons s rest ih =>
    intro st
    simp only [runRules, cmdsFor_append, eventsFor_append, List.length_append]
    by_cases hid : s.id = r
    · by_cases hfire : cmdsFor r (checkSchedule env st s).cmds = []
      · have hev : eventsFor r (checkSchedule env st s).events = [] := by
          have := (checkSchedule_counts env st s r).2
          rw [hfire] at this
          simp at this
          exact this
        obtain ⟨i1, i2, i3⟩ := ih (checkSchedule env st s).st
        rw [hfire, hev]
        refine ⟨by simpa using i1, ?_, by simpa using i3⟩
        intro hne
        refine i2 ?_
        simpa using hne
      · have hmem := checkSchedule_fires_mem hc hid hfire
        obtain ⟨r1, r2, r3⟩ := runRules_skip env r rest (checkSchedule env st s).st hmem
        rw [r1, r2]
        obtain ⟨c1, c2⟩ := checkSchedule_counts env st s r
        refine ⟨by simpa using c1, fun _ => r3, by simpa using c2⟩
    · obtain ⟨h1, h2⟩ := @checkSchedule_other env st s r hid
      rw [h1, h2]
      obtain ⟨i1, i2, i3⟩ := ih (checkSchedule env st s).st
      refine ⟨by simpa using i1, ?_, by simpa using i3⟩
      intro hne
      refine i2 ?_
      simpa using hne

theorem tick_lastCheckDate (env : TickEnv) (st : SchedState) (schedules : List Schedule) :
    (check_and_execute_schedules env st schedules).st.lastCheckDate = some env.date := by
  simp only [check_and_execute_schedules]
  rw [runRules_lastCheckDate]
  split
  · rfl
  · rename_i h
    exact not_ne_iff.mp h

theorem tick_le_one (env : TickEnv) (st : SchedState) (schedules : List Schedule) (r : Nat)
    (hc : env.excCommit r = false) :
    (cmdsFor r (check_and_execute_schedules env st schedules).cmds).length ≤ 1 ∧
    (cmdsFor r (check_and_execute_schedules env st schedules).cmds ≠ [] →
        dedupKey r env.date
          ∈ (check_and_execute_schedules env st schedules).st.executedToday) ∧
    (eventsFor r (check_and_execute_schedules env st schedules).events).length
      ≤ (cmdsFor r (check_and_execute_schedules env st schedules).cmds).length := by
  simp only [check_and_execute_schedules]
  exact runRules_le_one env r hc _ _

theorem tick_skip (env : TickEnv) (st : SchedState) (schedules : List Schedule) (r : Nat)
    (hk : dedupKey r env.date ∈ st.executedToday)
    (hd : st.lastCheckDate = some env.date) :
    cmdsFor r (check_and_execute_schedules env st schedules).cmds = [] ∧
    eventsFor r (check_and_execute_schedules env st schedules).events = [] ∧
    dedupKey r env.date
      ∈ (check_and_execute_schedules env st schedules).st.executedToday := by
  simp only [check_and_execute_schedules]
  rw [if_neg (by simp [hd])]
  exact runRules_skip env r _ st hk

theorem runTicks_skip (r d : Nat) : ∀ (ticks : List (TickEnv × List Schedule))
    (st : SchedState), (∀ p ∈ ticks, p.1.date = d) →
    dedupKey r d ∈ st.executedToday → st.lastCheckDate = some d →
    cmdsFor r (runTicks ticks st).cmds = [] ∧
    eventsFor r (runTicks ticks st).events = [] := by
  intro ticks
  induction ticks with
  | nil => intro st _ _ _; exact ⟨rfl, rfl⟩
  | cons p rest ih =>
    rcases p with ⟨env, schedules⟩
    intro st hdate hk hlast
    have hd : env.date = d := hdate _ (List.mem_cons_self _ _)
    subst hd
    obtain ⟨t1, t2, t3⟩ := tick_skip env st schedules r hk hlast
    simp only [runTicks, cmdsFor_append, eventsFor_append]
    obtain ⟨i1, i2⟩ := ih _ (fun q hq => hdate q (List.mem_cons_of_mem _ hq)) t3
      (tick_lastCheckDate env st schedules)
    exact ⟨by simp [t1, i1], by simp [t2, i2]⟩

theorem runTicks_le_one (r d : Nat) : ∀ (ticks : List (TickEnv × List Schedule))
    (st : SchedState), (∀ p ∈ ticks, p.1.date = d) →
    (∀ p ∈ ticks, p.1.excCommit r = false) →
    (cmdsFor r (runTicks ticks st).cmds).length ≤ 1 ∧
    (eventsFor r (runTicks ticks st).events).length
      ≤ (cmdsFor r (runTicks ticks st).cmds).length := by
  intro ticks
  induction ticks with
  | nil =>
    intro st _ _
    exact ⟨by simp [runTicks, cmdsFor], by simp [runTicks, cmdsFor, eventsFor]⟩
  | cons p rest ih =>
    rcases p with ⟨env, schedules⟩
    intro st hdate hcommit
    have hd : env.date = d := hdate _ (List.mem_cons_self _ _)
    subst hd
    have hcr : env.excCommit r = false := hcommit _ (List.mem_cons_self _ _)
    obtain ⟨c1, c2, c3⟩ := tick_le_one env st schedules r hcr
    simp only [runTicks, cmdsFor_append, eventsFor_append, List.length_append]
    by_cases hfire : cmdsFor r (check_and_execute_schedules env st schedules).cmds = []
    · have hev : eventsFor r (check_and_execute_schedules env st schedules).events = [] := by
        rw [hfire] at c3
        simpa using c3
      rw [hfire, hev]
      obtain ⟨i1, i2⟩ := ih _ (fun q hq => hdate q (List.mem_cons_of_mem _ hq))
        (fun q hq => hcommit q (List.mem_cons_of_mem _ hq))
      exact ⟨by simpa using i1, by simpa using i2⟩
    · have hmem := c2 hfire
      obtain ⟨s1, s2⟩ := runTicks_skip r env.date rest _
        (fun q hq => hdate q (List.mem_cons_of_mem _ hq)) hmem
        (tick_lastCheckDate env st schedules)
      rw [s1, s2]
      exact ⟨by simpa using c1, by simpa using c3⟩

theorem tick_DateInv (env : TickEnv) (st : SchedState) (schedules : List Schedule)
    (h : DateInv st) : DateInv (check_and_execute_schedules env st schedules).st := by
  intro k hk
  have hlast := tick_lastCheckDate env st schedules
  simp only [check_and_execute_schedules] at hk hlast
  rcases runRules_mem_st env _ _ k hk with h1 | ⟨s, _, he⟩
  · by_cases hroll : st.lastCheckDate ≠ some env.date
    · rw [if_pos hroll] at h1
      simp at h1
    · rw [if_neg hroll] at h1
      obtain ⟨i, d', hld, hkey⟩ := h _ h1
      have hde : st.lastCheckDate = some env.date := not_ne_iff.mp hroll
      rw [hde] at hld
      injection hld with hld2
      refine ⟨i, env.date, hlast, ?_⟩
      rw [hkey, hld2]
  · exact ⟨s.id, env.date, hlast, he⟩

theorem checkSchedule_fires (env : TickEnv) (st : SchedState) (s : Schedule)
    (hk : dedupKey s.id env.date ∉ st.executedToday)
    (ht : s.time = env.time)
    (hp : env.excParse s.id = false)
    (hw : daysOfWeek s = [] ∨ env.weekday ∈ daysOfWeek s) :
    (checkSchedule env st s).cmds = [⟨s.device_id, s.action, s.id⟩] := by
  simp only [checkSchedule]
  rw [if_neg hk, if_neg (by simp [ht]), if_neg (by simp [hp]),
    if_neg (by rcases hw with h | h <;> simp [h])]
  split
  · rfl
  · split
    · rfl
    · rfl

theorem checkSchedule_sendfail (env : TickEnv) (st : SchedState) (s : Schedule)
    (hk : dedupKey s.id env.date ∉ st.executedToday)
    (ht : s.time = env.time)
    (hp : env.excParse s.id = false)
    (hw : daysOfWeek s = [] ∨ env.weekday ∈ daysOfWeek s)
    (hf : env.sendSuccess s.id = false) :
    checkSchedule env st s =
      ⟨⟨st.executedToday ++ [dedupKey s.id env.date], st.lastCheckDate⟩, [],
       [⟨s.device_id, s.action, s.id⟩]⟩ := by
  simp only [checkSchedule]
  rw [if_neg hk, if_neg (by simp [ht]), if_neg (by simp [hp]),
    if_neg (by rcases hw with h | h <;> simp [h]), if_pos hf]
  simp only [addKey, if_neg hk]

theorem checkSchedule_cmds_iff (env : TickEnv) (st : SchedState) (s : Schedule)
    (hk : dedupKey s.id env.date ∉ st.executedToday)
    (hp : env.excParse s.id = false) :
    (checkSchedule env st s).cmds ≠ [] ↔
      (s.time = env.time ∧ (daysOfWeek s = [] ∨ env.weekday ∈ daysOfWeek s)) := by
  constructor
  · intro hne
    by_cases ht : s.time = env.time
    · refine ⟨ht, ?_⟩
      by_cases hw : daysOfWeek s = [] ∨ env.weekday ∈ daysOfWeek s
      · exact hw
      · exfalso
        push_neg at hw
        have hsk : checkSchedule env st s = ⟨st, [], []⟩ := by
          simp only [checkSchedule]
          rw [if_neg hk, if_neg (by simp [ht]), if_neg (by simp [hp]), if_pos hw]
        rw [hsk] at hne
        exact hne rfl
    · have hsk : checkSchedule env st s = ⟨st, [], []⟩ := by
        simp only [checkSchedule]
        rw [if_neg hk, if_pos ht]
      rw [hsk] at hne
      exact absurd rfl hne
  · rintro ⟨ht, hw⟩
    rw [checkSchedule_fires env st s hk ht hp hw]
    simp

theorem tick_fires_next_day (env : TickEnv) (st : SchedState) (s : Schedule) (d : Nat)
    (hdate : env.date = d + 1) (hlast : st.lastCheckDate = some d)
    (hact : s.is_active = true) (ht : s.time = env.time)
    (hp : env.excParse s.id = false)
    (hw : daysOfWeek s = [] ∨ env.weekday ∈ daysOfWeek s) :
    (check_and_execute_schedules env st [s]).cmds = [⟨s.device_id, s.action, s.id⟩] := by
  simp only [check_and_execute_schedules]
  rw [if_pos (by rw [hlast, hdate]; intro hcon; injection hcon with hcon2; omega)]
  rw [show List.filter (fun s => s.is_active) [s] = [s] by simp [hact]]
  simp only [runRules]
  rw [checkSchedule_fires _ _ s (by simp) ht hp hw]
  rfl

/-! ## Exception-isolation lemmas (one rule raising does not affect the rest) -/

theorem runRules_drop_exc (env : TickEnv) (bad : Schedule)
    (hb : env.excParse bad.id = true) : ∀ (L1 L2 : List Schedule) (st : SchedState),
    runRules env st (L1 ++ bad :: L2) = runRules env st (L1 ++ L2) := by
  intro L1
  induction L1 with
  | nil =>
    intro L2 st
    simp only [List.nil_append, runRules]
    rw [checkSchedule_excParse env st bad hb]
    simp only [List.nil_append]
  | cons s rest ih =>
    intro L2 st
    simp only [List.cons_append, runRules, List.append_eq]
    rw [ih]

theorem tick_drop_exc (env : TickEnv) (bad : Schedule) (hb : env.excParse bad.id = true)
    (L1 L2 : List Schedule) (st : SchedState) :
    check_and_execute_schedules env st (L1 ++ bad :: L2)
      = check_and_execute_schedules env st (L1 ++ L2) := by
  simp only [check_and_execute_schedules, List.filter_append, List.filter_cons]
  by_cases hact : bad.is_active = true
  · rw [if_pos hact]
    exact runRules_drop_exc env bad hb _ _ _
  · rw [if_neg hact]

theorem runTicks_drop_exc (bad : Schedule) (L1 L2 : List Schedule) :
    ∀ (envs : List TickEnv) (st : SchedState),
    (∀ e ∈ envs, e.excParse bad.id = true) →
    runTicks (envs.map (fun e => (e, L1 ++ bad :: L2))) st
      = runTicks (envs.map (fun e => (e, L1 ++ L2))) st := by
  intro envs
  induction envs with
  | nil => intro st _; rfl
  | cons e rest ih =>
    intro st h
    simp only [List.map_cons, runTicks]
    rw [tick_drop_exc e bad (h e (List.mem_cons_self _ _)) L1 L2 st,
      ih _ (fun q hq => h q (List.mem_cons_of_mem _ hq))]

/-! ## Router lemmas -/

theorem find?_append_none {α : Type} (p : α → Bool) :
    ∀ (l₁ l₂ : List α), (∀ x ∈ l₁, p x = false) →
    (l₁ ++ l₂).find? p = l₂.find? p := by
  intro l₁
  induction l₁ with
  | nil => intro l₂ _; rfl
  | cons a l ih =>
    intro l₂ h
    simp only [List.cons_append, List.find?, h a (List.mem_cons_self _ _)]
    exact ih l₂ (fun x hx => h x (List.mem_cons_of_mem _ hx))

theorem find?_eq_none_all {α : Type} (p : α → Bool) :
    ∀ l : List α, (∀ x ∈ l, p x = false) → l.find? p = none := by
  intro l
  induction l with
  | nil => intro _; rfl
  | cons a l ih =>
    intro h
    simp only [List.find?, h a (List.mem_cons_self _ _)]
    exact ih (fun x hx => h x (List.mem_cons_of_mem _ hx))

theorem splitSeg_short_iff (t : List Char) : (splitSeg t).length < 2 ↔ '/' ∉ t := by
  rcases hft : firstSeg t with ⟨t0, o⟩
  have hrt := firstSeg_recons t
  rw [hft] at hrt
  dsimp only at hrt
  have hts : '/' ∉ t0 := by
    have h0 := firstSeg_no_slash t
    rw [hft] at h0
    exact h0
  cases o with
  | none =>
    dsimp only at hrt
    rw [List.append_nil] at hrt
    subst hrt
    rw [splitSeg_no_slash hts]
    simp [hts]
  | some r =>
    dsimp only at hrt
    subst hrt
    rw [splitSeg_append_slash r hts]
    constructor
    · intro h
      exfalso
      have hpos := List.length_pos_iff_ne_nil.mpr (splitSeg_ne_nil r)
      simp only [List.length_cons] at h
      omega
    · intro h
      exfalso
      exact h (List.mem_append_right _ (List.mem_cons_self _ _))

theorem chopNL_eq_some : ∀ {ts u : List Char}, chopNL ts = some u ↔ ts = u ++ ['\n'] := by
  intro ts
  induction ts with
  | nil =>
    intro u
    simp [chopNL]
  | cons c cs ih =>
    intro u
    cases cs with
    | nil =>
      simp only [chopNL]
      by_cases hc : c = '\n'
      · subst hc
        rw [if_pos rfl]
        constructor
        · intro h
          injection h with h2
          subst h2
          rfl
        · intro h
          cases u with
          | nil => rfl
          | cons x xs =>
            exfalso
            have hl := congrArg List.length h
            simp only [List.length_cons, List.length_append, List.length_nil] at hl
            omega
      · rw [if_neg hc]
        constructor
        · intro h
          exact absurd h (by simp)
        · intro h
          exfalso
          cases u with
          | nil =>
            injection h with h1 _
            exact hc h1
          | cons x xs =>
            have hl := congrArg List.length h
            simp only [List.length_cons, List.length_append, List.length_nil] at hl
            omega
    | cons d cs' =>
      simp only [chopNL, Option.map_eq_some']
      constructor
      · rintro ⟨v, hv, hu⟩
        rw [← hu, ih.mp hv]
        rfl
      · intro h
        cases u with
        | nil =>
          exfalso
          injection h with _ h2
          exact absurd h2 (by simp)
        | cons x xs =>
          injection h with h1 h2
          subst h1
          exact ⟨xs, ih.mpr h2, rfl⟩

/-! ## Claim theorems -/

/-- C10: calling `start()` on the schedule evaluator while it is already
running is a no-op — it returns without creating a second periodic tick
task (the task counter is unchanged, so at most one tick loop ever exists),
and `start` is idempotent in the running state. -/
theorem c10_start_idempotent (st : ServiceState) (h : st.running = true) :
    SchedulerService.start st = st ∧
    (SchedulerService.start st).tasksCreated = st.tasksCreated ∧
    SchedulerService.start (SchedulerService.start st) = SchedulerService.start st := by
  have he : SchedulerService.start st = st := by
    simp [SchedulerService.start, h]
  exact ⟨he, by rw [he], by rw [he, he]⟩

theorem c10_start_idempotent_witness :
    (⟨true, 1⟩ : ServiceState).running = true ∧
      SchedulerService.start ⟨true, 1⟩ = (⟨true, 1⟩ : ServiceState) :=
  ⟨rfl, (c10_start_idempotent ⟨true, 1⟩ rfl).1⟩

/-- C9: an inbound message whose topic has fewer than two `/`-separated
segments (equivalently: no `/` in the topic at all) is silently dropped by
`_on_message` before pattern matching, so no handler is invoked even when a
registered pattern such as `#` matches the topic. -/
theorem c9_short_topic {H : Type} (callbacks : List (String × H)) (topic : String)
    (h : (splitSeg topic.data).length < 2) :
    _on_message callbacks topic = [] ∧ '/' ∉ topic.data := by
  refine ⟨?_, (splitSeg_short_iff topic.data).mp h⟩
  simp only [_on_message]
  rw [if_neg (by omega)]

theorem c9_short_topic_witness :
    (splitSeg ("ESP32" : String).data).length < 2 ∧
      _topic_matches "ESP32" "#" = true ∧
      _on_message [("#", (0 : Nat))] "ESP32" = [] :=
  ⟨by decide, by decide, (c9_short_topic [("#", (0 : Nat))] "ESP32" (by decide)).1⟩

/-- C7: on a given tick, a rule not yet in the dedup set (whose
`days_of_week` JSON decodes without raising) triggers the outbound command
if and only if its time-of-day string exactly equals the current wall
clock truncated to the minute and its weekday set is either empty (fires
every day) or contains the current ISO weekday; otherwise it is skipped —
and when it does trigger, exactly one command is sent, carrying the rule's
device id and action. -/
theorem c7_match_conditions (env : TickEnv) (st : SchedState) (s : Schedule)
    (hk : dedupKey s.id env.date ∉ st.executedToday)
    (hp : env.excParse s.id = false) :
    ((checkSchedule env st s).cmds ≠ [] ↔
      (s.time = env.time ∧ (daysOfWeek s = [] ∨ env.weekday ∈ daysOfWeek s))) ∧
    ((checkSchedule env st s).cmds = [] ∨
      (checkSchedule env st s).cmds = [⟨s.device_id, s.action, s.id⟩]) := by
  refine ⟨checkSchedule_cmds_iff env st s hk hp, ?_⟩
  rcases checkSchedule_cases env st s with h | h | ⟨_, h⟩ | h <;> rw [h] <;> simp

theorem c7_match_conditions_witness :
    (dedupKey sampleSchedule.id sampleEnvOK.date
        ∉ (⟨[], some 0⟩ : SchedState).executedToday) ∧
    sampleEnvOK.excParse sampleSchedule.id = false ∧
    ((checkSchedule sampleEnvOK ⟨[], some 0⟩ sampleSchedule).cmds ≠ [] ↔
      (sampleSchedule.time = sampleEnvOK.time ∧
        (daysOfWeek sampleSchedule = [] ∨
          sampleEnvOK.weekday ∈ daysOfWeek sampleSchedule))) := by
  refine ⟨by decide, by decide, ?_⟩
  exact (c7_match_conditions sampleEnvOK ⟨[], some 0⟩ sampleSchedule
    (by decide) (by decide)).1

/-- C4: handler resolution scans the registered patterns in registration
order and dispatches exactly the handler of the first pattern matching the
topic — even when later registered patterns also match — and dispatches no
handler when no registered pattern matches. -/
theorem c4_first_match {H : Type} :
    (∀ (cbs₁ cbs₂ : List (String × H)) (p : String) (h : H) (topic : String),
      2 ≤ (splitSeg topic.data).length →
      (∀ e ∈ cbs₁, _topic_matches topic e.1 = false) →
      _topic_matches topic p = true →
      _on_message (cbs₁ ++ (p, h) :: cbs₂) topic = [MqttAction.dispatch topic h]) ∧
    (∀ (cbs : List (String × H)) (topic : String),
      (∀ e ∈ cbs, _topic_matches topic e.1 = false) →
      _on_message cbs topic = []) := by
  constructor
  · intro cbs₁ cbs₂ p h topic hseg hnone hmatch
    simp only [_on_message]
    rw [if_pos hseg, find?_append_none _ _ _ hnone]
    simp only [List.find?, hmatch]
  · intro cbs topic hn
    simp only [_on_message]
    split
    · rw [find?_eq_none_all _ _ hn]
    · rfl

theorem c4_first_match_witness :
    2 ≤ (splitSeg ("ESP32-001/sensor/raw" : String).data).length ∧
    _topic_matches "ESP32-001/sensor/raw" "x/y" = false ∧
    _topic_matches "ESP32-001/sensor/raw" "+/sensor/raw" = true ∧
    _topic_matches "ESP32-001/sensor/raw" "#" = true ∧
    _on_message [("x/y", (0 : Nat)), ("+/sensor/raw", 1), ("#", 2)] "ESP32-001/sensor/raw"
      = [MqttAction.dispatch "ESP32-001/sensor/raw" 1] := by
  refine ⟨by decide, by decide, by decide, by decide, ?_⟩
  exact (c4_first_match (H := Nat)).1 [("x/y", 0)] [("#", 2)] "+/sensor/raw" 1
    "ESP32-001/sensor/raw" (by decide) (by decide) (by decide)

/-- C6: on every transition into Connected (`_on_connect` with result code
0), a subscribe request is issued exactly once for each of the N patterns
currently registered — exactly N subscribe calls, one per pattern — and in
the action log of the ensuing event sequence these subscribes form a
dispatch-free prefix, so they all precede any inbound message dispatched to
a handler after the (re)connect. -/
theorem c6_resubscribe {H : Type} [DecidableEq H] (st : MqttState H)
    (evs : List MqttEvent) (hn : (st.callbacks.map Prod.fst).Nodup) :
    ∃ rest, (runEvents st (MqttEvent.connectAck 0 :: evs)).2
        = st.callbacks.map (fun e => MqttAction.subscribe (H := H) e.1) ++ rest ∧
      (st.callbacks.map (fun e => MqttAction.subscribe (H := H) e.1)).length
        = st.callbacks.length ∧
      (∀ q ∈ st.callbacks.map Prod.fst,
        (st.callbacks.map (fun e => MqttAction.subscribe (H := H) e.1)).count
            (MqttAction.subscribe (H := H) q) = 1) ∧
      (∀ (t : String) (h : H),
        MqttAction.dispatch t h
          ∉ st.callbacks.map (fun e => MqttAction.subscribe (H := H) e.1)) := by
  refine ⟨(runEvents { st with connected := true } evs).2, ?_, ?_, ?_, ?_⟩
  · simp only [runEvents, stepEvent, _on_connect, if_pos rfl, if_true]
  · exact List.length_map _ _
  · intro q hq
    have hmm : st.callbacks.map (fun e => MqttAction.subscribe (H := H) e.1)
        = (st.callbacks.map Prod.fst).map MqttAction.subscribe := by
      rw [List.map_map]
      rfl
    rw [hmm, List.count_map_of_injective _ _ (fun a b hab => by injection hab) q]
    exact List.count_eq_one_of_mem hn hq
  · intro t h hmem
    simp only [List.mem_map] at hmem
    obtain ⟨e, _, he⟩ := hmem
    simp at he

theorem c6_resubscribe_witness :
    ((([("a/+", (0 : Nat)), ("b/#", 1)] : List (String × Nat)).map Prod.fst).Nodup) ∧
    (∃ rest,
      (runEvents (⟨false, [("a/+", (0 : Nat)), ("b/#", 1)]⟩ : MqttState Nat)
          (MqttEvent.connectAck 0 :: [MqttEvent.message "a/x"])).2
        = ([("a/+", (0 : Nat)), ("b/#", 1)] : List (String × Nat)).map
            (fun e => MqttAction.subscribe (H := Nat) e.1) ++ rest ∧
      (([("a/+", (0 : Nat)), ("b/#", 1)] : List (String × Nat)).map
          (fun e => MqttAction.subscribe (H := Nat) e.1)).length
        = ([("a/+", (0 : Nat)), ("b/#", 1)] : List (String × Nat)).length ∧
      (∀ q ∈ ([("a/+", (0 : Nat)), ("b/#", 1)] : List (String × Nat)).map Prod.fst,
        (([("a/+", (0 : Nat)), ("b/#", 1)] : List (String × Nat)).map
            (fun e => MqttAction.subscribe (H := Nat) e.1)).count
          (MqttAction.subscribe (H := Nat) q) = 1) ∧
      (∀ (t : String) (h : Nat),
        MqttAction.dispatch t h
          ∉ ([("a/+", (0 : Nat)), ("b/#", 1)] : List (String × Nat)).map
              (fun e => MqttAction.subscribe (H := Nat) e.1))) := by
  refine ⟨by decide, ?_⟩
  exact c6_resubscribe (⟨false, [("a/+", 0), ("b/#", 1)]⟩ : MqttState Nat)
    [MqttEvent.message "a/x"] (by decide)

/-- C8: an exception raised while evaluating one rule during a tick (here:
the JSON decode of its `days_of_week` raising for that rule) is caught by
the per-rule handler, so the tick produces exactly the state, events and
commands it would have produced had the raising rule not been in the
fetched list — every remaining rule of the same tick is still evaluated —
and the periodic loop goes on: the same holds across any sequence of
subsequent ticks. -/
theorem c8_exception_isolation (bad : Schedule) (L1 L2 : List Schedule)
    (env : TickEnv) (envs : List TickEnv) (st : SchedState)
    (hb : env.excParse bad.id = true)
    (hbs : ∀ e ∈ envs, e.excParse bad.id = true) :
    check_and_execute_schedules env st (L1 ++ bad :: L2)
      = check_and_execute_schedules env st (L1 ++ L2) ∧
    runTicks (envs.map (fun e => (e, L1 ++ bad :: L2))) st
      = runTicks (envs.map (fun e => (e, L1 ++ L2))) st :=
  ⟨tick_drop_exc env bad hb L1 L2 st, runTicks_drop_exc bad L1 L2 envs st hbs⟩

theorem c8_exception_isolation_witness :
    (⟨"14:00", 3, 0, fun _ => true, fun i => decide (i = 2), fun _ => false⟩ :
        TickEnv).excParse (⟨2, "bad", "ESP32-002", "off", "14:00", none, true⟩ :
        Schedule).id = true ∧
    check_and_execute_schedules
        ⟨"14:00", 3, 0, fun _ => true, fun i => decide (i = 2), fun _ => false⟩
        ⟨[], none⟩
        ([sampleSchedule] ++ ⟨2, "bad", "ESP32-002", "off", "14:00", none, true⟩ ::
          [⟨3, "other", "ESP32-003", "on", "14:00", none, true⟩])
      = check_and_execute_schedules
          ⟨"14:00", 3, 0, fun _ => true, fun i => decide (i = 2), fun _ => false⟩
          ⟨[], none⟩
          ([sampleSchedule] ++ [⟨3, "other", "ESP32-003", "on", "14:00", none, true⟩]) := by
  refine ⟨by decide, ?_⟩
  exact (c8_exception_isolation ⟨2, "bad", "ESP32-002", "off", "14:00", none, true⟩
    [sampleSchedule] [⟨3, "other", "ESP32-003", "on", "14:00", none, true⟩]
    ⟨"14:00", 3, 0, fun _ => true, fun i => decide (i = 2), fun _ => false⟩
    [] ⟨[], none⟩ (by decide) (by intro e he; exact absurd he (List.not_mem_nil e))).1

/-- C2 counterexample: with the sample rule matching at the sample tick and
the send returning failure, the code records no automation event but DOES
add (rule id, date) to the dedup set, and a later evaluation of the same
date skips the rule — refuting the claim that the dedup entry is added
only after a successful send and that the rule stays eligible for retry. -/
theorem c2_counterexample :
    (checkSchedule sampleEnvFail ⟨[], some 0⟩ sampleSchedule).events = [] ∧
    dedupKey sampleSchedule.id sampleEnvFail.date
      ∈ (checkSchedule sampleEnvFail ⟨[], some 0⟩ sampleSchedule).st.executedToday ∧
    checkSchedule sampleEnvFail
        (checkSchedule sampleEnvFail ⟨[], some 0⟩ sampleSchedule).st sampleSchedule
      = ⟨(checkSchedule sampleEnvFail ⟨[], some 0⟩ sampleSchedule).st, [], []⟩ :=
  ⟨by decide, by decide, by decide⟩

/-- C2 amended: when a tick selects a matching rule and the outbound send
returns failure, no automation event is recorded, but — contrary to the
original claim — (rule id, current date) IS added to the dedup set, because
`_execute_schedule` swallows the failure and line 113 runs unconditionally
after it; the rule is therefore NOT eligible to fire again on a later tick
of the same day. -/
theorem c2_amended (env : TickEnv) (st : SchedState) (s : Schedule)
    (hk : dedupKey s.id env.date ∉ st.executedToday)
    (ht : s.time = env.time)
    (hp : env.excParse s.id = false)
    (hw : daysOfWeek s = [] ∨ env.weekday ∈ daysOfWeek s)
    (hf : env.sendSuccess s.id = false) :
    checkSchedule env st s
      = ⟨⟨st.executedToday ++ [dedupKey s.id env.date], st.lastCheckDate⟩, [],
         [⟨s.device_id, s.action, s.id⟩]⟩ ∧
    dedupKey s.id env.date ∈ (checkSchedule env st s).st.executedToday ∧
    (checkSchedule env st s).events = [] ∧
    checkSchedule env (checkSchedule env st s).st s
      = ⟨(checkSchedule env st s).st, [], []⟩ := by
  have h := checkSchedule_sendfail env st s hk ht hp hw hf
  have hmem : dedupKey s.id env.date ∈ (checkSchedule env st s).st.executedToday := by
    rw [h]
    exact List.mem_append_right _ (List.mem_cons_self _ _)
  exact ⟨h, hmem, by rw [h], checkSchedule_skip_mem env _ s hmem⟩

theorem c2_amended_witness :
    (dedupKey sampleSchedule.id sampleEnvFail.date
        ∉ (⟨[], some 0⟩ : SchedState).executedToday) ∧
    checkSchedule sampleEnvFail ⟨[], some 0⟩ sampleSchedule
      = ⟨⟨[] ++ [dedupKey sampleSchedule.id sampleEnvFail.date], some 0⟩, [],
         [⟨sampleSchedule.device_id, sampleSchedule.action, sampleSchedule.id⟩]⟩ := by
  refine ⟨by decide, ?_⟩
  exact (c2_amended sampleEnvFail ⟨[], some 0⟩ sampleSchedule (by decide) (by decide)
    (by decide) (Or.inl (by decide)) (by decide)).1

/-- C1 counterexample: two evaluator ticks within the same matching minute
of the same date; on the first the send succeeds but the event commit
raises, so the exception skips the dedup insertion of line 113, and the
second tick sends the same rule's command again — two outbound commands
for one (rule, date), refuting "sent at most once". -/
theorem c1_counterexample :
    (runTicks [(sampleEnvCommitExc, [sampleSchedule]), (sampleEnvOK, [sampleSchedule])]
        ⟨[], none⟩).cmds
      = [⟨"ESP32-001", "on", 1⟩, ⟨"ESP32-001", "on", 1⟩] ∧
    sampleEnvCommitExc.date = sampleEnvOK.date :=
  ⟨by decide, by decide⟩

/-- C1 amended: once (rule id, date) is in the dedup set, every later
evaluation of that rule on the same date skips it outright; and provided no
exception interrupts the rule's evaluation between its send and the dedup
insertion (the event commit does not raise for that rule), the outbound
command is sent at most once and at most one automation event is recorded
for it across any sequence of evaluator ticks within that date. -/
theorem c1_amended (r d : Nat) (ticks : List (TickEnv × List Schedule)) (st : SchedState)
    (hdate : ∀ p ∈ ticks, p.1.date = d)
    (hcommit : ∀ p ∈ ticks, p.1.excCommit r = false) :
    (∀ (env : TickEnv) (st' : SchedState) (s : Schedule), s.id = r →
      dedupKey r env.date ∈ st'.executedToday →
      checkSchedule env st' s = ⟨st', [], []⟩) ∧
    (cmdsFor r (runTicks ticks st).cmds).length ≤ 1 ∧
    (eventsFor r (runTicks ticks st).events).length ≤ 1 := by
  obtain ⟨h1, h2⟩ := runTicks_le_one r d ticks st hdate hcommit
  refine ⟨?_, h1, le_trans h2 h1⟩
  intro env st' s hid hk
  exact checkSchedule_skip_mem env st' s (by rw [hid]; exact hk)

theorem c1_amended_witness :
    (∀ p ∈ [(sampleEnvOK, [sampleSchedule]), (sampleEnvOK, [sampleSchedule])],
        p.1.date = 0) ∧
    (∀ p ∈ [(sampleEnvOK, [sampleSchedule]), (sampleEnvOK, [sampleSchedule])],
        p.1.excCommit 1 = false) ∧
    (cmdsFor 1 (runTicks [(sampleEnvOK, [sampleSchedule]), (sampleEnvOK, [sampleSchedule])]
        ⟨[], none⟩).cmds).length ≤ 1 := by
  refine ⟨by decide, by decide, ?_⟩
  exact (c1_amended 1 0 [(sampleEnvOK, [sampleSchedule]), (sampleEnvOK, [sampleSchedule])]
    ⟨[], none⟩ (by decide) (by decide)).2.1

/-- C5: the dedup set only ever holds entries for the current local date:
every tick leaves `some current_date` as the recorded date and preserves
the date invariant; on a tick whose local date differs from the recorded
one the whole evaluation proceeds from an empty dedup set (the rollover
barrier of lines 71-75 runs before any rule is looked at); and a rule that
fired on date D is again eligible at date D+1 at the same matching time:
the following day's tick sends its command again. -/
theorem c5_date_rollover (env : TickEnv) (st : SchedState) (schedules : List Schedule)
    (hinv : DateInv st) :
    DateInv (check_and_execute_schedules env st schedules).st ∧
    (check_and_execute_schedules env st schedules).st.lastCheckDate = some env.date ∧
    (st.lastCheckDate ≠ some env.date →
      check_and_execute_schedules env st schedules
        = check_and_execute_schedules env ⟨[], some env.date⟩ schedules) ∧
    (∀ (env1 env2 : TickEnv) (st1 : SchedState) (s : Schedule) (d : Nat),
      env1.date = d → env2.date = d + 1 →
      s.is_active = true → s.time = env2.time → env2.excParse s.id = false →
      (daysOfWeek s = [] ∨ env2.weekday ∈ daysOfWeek s) →
      (check_and_execute_schedules env2
          (check_and_execute_schedules env1 st1 [s]).st [s]).cmds
        = [⟨s.device_id, s.action, s.id⟩]) := by
  refine ⟨tick_DateInv env st schedules hinv, tick_lastCheckDate env st schedules, ?_, ?_⟩
  · intro hne
    simp only [check_and_execute_schedules]
    rw [if_pos hne,
      if_neg (show ¬((⟨[], some env.date⟩ : SchedState).lastCheckDate ≠ some env.date)
        by simp)]
  · intro env1 env2 st1 s d hd1 hd2 hact ht hp hw
    refine tick_fires_next_day env2 _ s d hd2 ?_ hact ht hp hw
    rw [tick_lastCheckDate, hd1]

theorem c5_date_rollover_witness :
    DateInv (⟨[], none⟩ : SchedState) ∧
    DateInv (check_and_execute_schedules sampleEnvOK ⟨[], none⟩ [sampleSchedule]).st ∧
    (check_and_execute_schedules { sampleEnvOK with date := 1 }
        (check_and_execute_schedules sampleEnvOK ⟨[], none⟩ [sampleSchedule]).st
        [sampleSchedule]).cmds
      = [⟨sampleSchedule.device_id, sampleSchedule.action, sampleSchedule.id⟩] := by
  have hinv : DateInv (⟨[], none⟩ : SchedState) := by
    intro k hk
    exact absurd hk (List.not_mem_nil k)
  refine ⟨hinv, (c5_date_rollover sampleEnvOK ⟨[], none⟩ [sampleSchedule] hinv).1, ?_⟩
  exact (c5_date_rollover sampleEnvOK ⟨[], none⟩ [sampleSchedule] hinv).2.2.2
    sampleEnvOK { sampleEnvOK with date := 1 } ⟨[], none⟩ sampleSchedule 0
    (by decide) (by decide) (by decide) (by decide) (by decide) (Or.inl (by decide))

/-- C3 counterexample: the regex-based matcher and the spec's segment-wise
matcher disagree: the pattern `foo+` partially matches inside the single
segment of topic `foobar` (code true, spec false, since no partial
matching is allowed and `foo+` is not byte-equal to `foobar`); the
pattern `a/#` fails to match the topic `a` because the compiled regex
requires the `/` before `#` to be literally present (code false, spec
true: a final `#` matches zero remaining segments); and the well-formed
pattern `a` matches the topic `a` followed by a newline, because Python's
`$` also accepts just before a trailing newline (code true, spec false:
the segments are not byte-equal). -/
theorem c3_counterexample :
    _topic_matches "foobar" "foo+" = true ∧
    spec_topic_matches "foobar" "foo+" = false ∧
    _topic_matches "a" "a/#" = false ∧
    spec_topic_matches "a" "a/#" = true ∧
    _topic_matches "a\n" "a" = true ∧
    spec_topic_matches "a\n" "a" = false ∧
    wfPat ("a" : String).data = true :=
  ⟨by decide, by decide, by decide, by decide, by decide, by decide, by decide⟩

/-- C3 amended: restricted to well-formed patterns — every `/`-separated
segment either the `+` wildcard standing alone or a literal segment
containing no `#`, no embedded `+` and none of the other regex
metacharacters — and to topics that do not end in a newline, the source's
matcher coincides with the spec's segment-wise semantics: true iff topic
and pattern have the same number of segments, every literal segment of
the pattern is byte-equal (case-sensitive) to the corresponding topic
segment, and `+` aligns with exactly one non-empty segment.  Outside this
class the code follows the compiled regex instead: an embedded `+`
matches one-or-more non-`/` characters inside a segment, a pattern ending
in `/#` matches only topics in which that `/` is literally present, and a
topic with one trailing newline is accepted as if the newline were absent
(the `$` anchor's trailing-newline rule).  The second conjunct spells out
that the `chopNL` hypothesis says exactly "no trailing newline". -/
theorem c3_amended (topic pattern : String) (h : wfPat pattern.data = true)
    (hnl : chopNL topic.data = none) :
    _topic_matches topic pattern = spec_topic_matches topic pattern ∧
    (∀ u : List Char, topic.data ≠ u ++ ['\n']) := by
  constructor
  · simp only [_topic_matches, hnl, Bool.or_false]
    exact rmatch_eq_spec (pattern.data.length + 1) pattern.data topic.data (by omega) h
  · intro u hu
    rw [chopNL_eq_some.mpr hu] at hnl
    exact absurd hnl (by simp)

theorem c3_amended_witness :
    wfPat ("+/sensor/raw" : String).data = true ∧
    chopNL ("ESP32-001/sensor/raw" : String).data = none ∧
    _topic_matches "ESP32-001/sensor/raw" "+/sensor/raw"
      = spec_topic_matches "ESP32-001/sensor/raw" "+/sensor/raw" :=
  ⟨by decide, by decide,
    (c3_amended "ESP32-001/sensor/raw" "+/sensor/raw" (by decide) (by decide)).1⟩
